import Mathlib

/-!
Verification of the swift bug_reducer core against its specification.

The development shallowly embeds the Python sources under
`utils/bug_reducer/bug_reducer/`:

* `subprocess_utils.py` — `call_fingerprint`, the run fingerprinter;
* `swift_tools.py` — `br_call`, `SwiftOptCompileInvoker.invoke_with_passlist`;
* `func_bug_reducer.py` — `ReduceMiscompilingFunctions` (the oracle:
  `run_test`, `_test_funclist`, `get_funclist_hash`,
  `get_output_filename_stems`) and `invoke_function_bug_reducer`.

The generic minimization engine (`list_reducer.py`) is imported by
`func_bug_reducer.py` but is not part of the visible sources; it is
modelled from the specification's algorithm description (see
`BugReducer.reduceLoop` below).

External process execution and the `hashlib`/`md5` digest libraries are
not part of the repository; process invocations are passed in as explicit
results, and the digests are modelled as injective encodings of the exact
byte/character stream the source feeds through `update` (the stream order
is taken from the source; the encoding is a hex-nibble stand-in for the
library's hexdigest).
-/

namespace BugReducer

/-- RunResult, per the data model: the dictionary
`{'exit_code': ..., 'fingerprint': ...}` produced by `call_fingerprint`
(`subprocess_utils.py`) and `br_call` (`swift_tools.py`).  The fingerprint
hex string is modelled as its list of hex-nibble values. -/
structure RunResult where
  exit_code : Int
  fingerprint : List Nat
  deriving DecidableEq, Repr

/-- Outcome tags of one oracle test, the module constants
`TESTRESULT_KEEPPREFIX`, `TESTRESULT_KEEPSUFFIX`, `TESTRESULT_NOFAILURE`
of `list_reducer.py` re-exported by `func_bug_reducer.py`.  `keepPre`
stands for the KEEPPREFIX constant and `keepSuf` for KEEPSUFFIX. -/
inductive TestResult where
  | keepPre
  | keepSuf
  | noFailure
  deriving DecidableEq, Repr

/-- ReduceMiscompilingFunctions.run_test (`func_bug_reducer.py` lines
21-26), with the effectful `self._test_funclist` abstracted as the
predicate `test` on candidate lists: test the suffix leg first when it is
non-empty, then the prefix leg when it is non-empty, else report
NOFAILURE; always return the given pair unchanged. -/
def run_test (test : List String → Bool) (pre suf : List String) :
    TestResult × List String × List String :=
  if 0 < suf.length ∧ test suf = true then (.keepSuf, pre, suf)
  else if 0 < pre.length ∧ test pre = true then (.keepPre, pre, suf)
  else (.noFailure, pre, suf)

/-- br_call (`swift_tools.py` lines 12-18), with the external
`subprocess_utils.call_fingerprint` invocation abstracted as `call_fp`:
under `dry_run` it returns `{'exit_code': 0, 'fingerprint': ''}` without
consulting the process runner; otherwise it runs the process. -/
def br_call (args : List String) (dry_run : Bool)
    (call_fp : List String → RunResult) : RunResult :=
  if dry_run then { exit_code := 0, fingerprint := [] } else call_fp args

/-- State of a constructed `ReduceMiscompilingFunctions` reducer: its
`ListReducer.__init__` stores the candidate function list as the target
list (`func_bug_reducer.py` lines 14-19). -/
structure ReduceMiscompilingFunctionsState where
  target_list : List String
  deriving DecidableEq, Repr

/-- Possible outcomes of the driver `invoke_function_bug_reducer`
(`func_bug_reducer.py` lines 98-111): an immediate successful return
when the base case passes, a NameError crash, or a constructed reducer
running the reduction.  The last outcome is part of the data model
because the spec's control flow calls for it; the code never produces
it — see `invoke_function_bug_reducer`. -/
inductive DriverResult where
  | earlySuccess
  | nameErrorCrash
  | ranReduction (r : ReduceMiscompilingFunctionsState)
  deriving DecidableEq, Repr

/-- invoke_function_bug_reducer (`func_bug_reducer.py` lines 98-111):
the pipeline under test is first invoked on the unreduced input
(`sil_opt_invoker.invoke_with_passlist`); on exit code 0 the driver
prints success and returns immediately — no reducer is constructed.  On
nonzero exit the source evaluates the argument
`OptimizerTester(sil_opt_invoker, pass_list)` of the
`function_bug_reducer` call at line 111; `OptimizerTester` is bound
nowhere in the module or its imports, and `pass_list` is not a name in
that function's scope (only `args.pass_list` is), so Python raises
`NameError` while evaluating the call's arguments — before
`function_bug_reducer`, and hence before
`ReduceMiscompilingFunctions.__init__`, can ever run. -/
def invoke_function_bug_reducer (base_case_result : RunResult) : DriverResult :=
  if base_case_result.exit_code = 0 then .earlySuccess else .nameErrorCrash

/-- Fatal configuration errors raised by
`SwiftOptCompileInvoker.invoke_with_passlist` (`swift_tools.py` lines
296-304): the two `RuntimeError` messages. -/
inductive ConfigError where
  | optimizerCompileTimeCrasher
  | swiftLLVMGenCompileTimeCrasher
  deriving DecidableEq, Repr

/-- SwiftOptCompileInvoker.invoke_with_passlist (`swift_tools.py` lines
296-304), with its three sequential external invocations abstracted as
their results: if the sil-opt codegen leg exits nonzero, raise
`RuntimeError('Optimizer Compile Time Crasher?!')`; else if the
sil-llvm-gen leg exits nonzero, raise
`RuntimeError('Swift LLVM Gen Compile Time Crasher?!')`; else return the
run-script result. -/
def invoke_with_passlist (silopt_result llvmgen_result run_result : RunResult) :
    Except ConfigError RunResult :=
  if silopt_result.exit_code ≠ 0 then .error .optimizerCompileTimeCrasher
  else if llvmgen_result.exit_code ≠ 0 then .error .swiftLLVMGenCompileTimeCrasher
  else .ok run_result

/-- ReduceMiscompilingFunctions._test_funclist (`func_bug_reducer.py`
lines 33-54), error-flow view: the two
`silextract.invoke_with_functions` extraction invocations are performed
and their results (`extract_result`, `extract_invert_result`) are
discarded — the source binds them to nothing and never inspects their
exit codes — after which the verdict is whatever the tester returns
(`tester_result`, an exception-or-Bool since the tester may raise a
fatal `ConfigError`). -/
def test_funclist (extract_result extract_invert_result : RunResult)
    (tester_result : Except ConfigError Bool) : Except ConfigError Bool :=
  let _r1 := extract_result
  let _r2 := extract_invert_result
  tester_result

/-- Byte stream fed through `hashlib.sha256().update` by
call_fingerprint (`subprocess_utils.py` lines 10-16), in the source's
fixed order: first the single distinguishing byte `"0"` (48) on exit
code 0 or `"1"` (49) otherwise, then the full stdout bytes, then the
full stderr bytes. -/
def fingerprint_stream (exit_code : Int) (stdoutdata stderrdata : List Nat) :
    List Nat :=
  (if exit_code = 0 then [48] else [49]) ++ stdoutdata ++ stderrdata

/-- Modelled from the spec: `hashlib.sha256(...).hexdigest()` is an
external library, not repository code; the spec treats it as a collision
free digest of the update stream, so it is modelled as an injective
encoding of that stream — each byte mapped to its two hex nibbles,
matching the hexdigest output alphabet. -/
def sha256_hexdigest_model (stream : List Nat) : List Nat :=
  stream.flatMap (fun b => [b / 16, b % 16])

/-- call_fingerprint (`subprocess_utils.py` lines 5-25), with the
completed process abstracted as its observables `exit_code`,
`stdoutdata`, `stderrdata`: returns the exit code together with the
digest of `fingerprint_stream`. -/
def call_fingerprint (exit_code : Int) (stdoutdata stderrdata : List Nat) :
    RunResult :=
  { exit_code := exit_code
    fingerprint :=
      sha256_hexdigest_model (fingerprint_stream exit_code stdoutdata stderrdata) }

/-- Character stream fed through `md5.new().update` by
get_funclist_hash (`func_bug_reducer.py` lines 60-64): the loop
`for f in funcs: m.update(f)` concatenates the elements with no
separator, so the stream is the plain concatenation of the element
characters. -/
def md5_update_stream (funcs : List String) : List Char :=
  funcs.foldl (fun acc f => acc ++ f.data) []

/-- Nibble encoding of one character for the md5 digest model: the six
base-16 digits of its code point (every code point is below 16^6). -/
def charNibbles (c : Char) : List Nat :=
  [c.toNat / 1048576 % 16, c.toNat / 65536 % 16, c.toNat / 4096 % 16,
   c.toNat / 256 % 16, c.toNat / 16 % 16, c.toNat % 16]

/-- Modelled from the spec: `md5.new().hexdigest()` is an external
library, not repository code; the spec calls the naming scheme a content
based digest over the elements, so the digest is modelled as an
injective encoding of the accumulated update stream — each character
mapped to the six hex nibbles of its code point. -/
def md5_hexdigest_model (s : List Char) : List Nat :=
  s.flatMap charNibbles

/-- ReduceMiscompilingFunctions.get_funclist_hash (`func_bug_reducer.py`
lines 60-64): digest of the update stream of the candidate list. -/
def get_funclist_hash (funcs : List String) : List Nat :=
  md5_hexdigest_model (md5_update_stream funcs)

/-- Hex digit character for one nibble value, as `hexdigest` renders it
(0-9 then a-f). -/
def hexChar (n : Nat) : Char :=
  Char.ofNat (if n < 10 then 48 + n else 87 + n)

/-- The funclist hash as the hex string used in file names. -/
def get_funclist_hash_hex (funcs : List String) : String :=
  ⟨(get_funclist_hash funcs).map hexChar⟩

/-- ReduceMiscompilingFunctions.get_output_filename_stems
(`func_bug_reducer.py` lines 56-58): the two artifact stems derived from
one funclist hash — the hash itself for the candidate subset and
`hash + '_invert'` for its complement. -/
def get_output_filename_stems (funclist_hash : String) : String × String :=
  (funclist_hash, funclist_hash ++ "_invert")

/-- Contents written to the funclist description file by _test_funclist
(`func_bug_reducer.py` lines 37-39): each element followed by a newline,
in list order. -/
def funclist_file_contents (funcs : List String) : List Char :=
  funcs.foldr (fun f acc => f.data ++ '\n' :: acc) []

/-- The scratch-directory writes performed by one
ReduceMiscompilingFunctions._test_funclist call (`func_bug_reducer.py`
lines 33-52): one description file, named `'func_list_' + hash` inside
the work directory, holding the ordered elements one per line, and the
two artifact stems derived from the same hash. -/
structure ScratchWrites where
  description_file_name : String
  description_file_contents : List Char
  artifact_stems : String × String
  deriving DecidableEq, Repr

/-- Naming view of ReduceMiscompilingFunctions._test_funclist
(`func_bug_reducer.py` lines 33-52): the one description file it writes
and the two artifact stems it derives for the extraction legs. -/
def test_funclist_writes (funcs : List String) : ScratchWrites :=
  { description_file_name := "func_list_" ++ get_funclist_hash_hex funcs
    description_file_contents := funclist_file_contents funcs
    artifact_stems := get_output_filename_stems (get_funclist_hash_hex funcs) }

/-- Oracle signature of the Minimization Engine contract:
`oracle(prefix, suffix) -> Outcome` (spec section 4.1); the first
argument is the candidate chunk, the second the rest of the target. -/
def Oracle (α : Type) : Type :=
  List α → List α → TestResult

/-- Modelled from the spec: `list_reducer.py` (the generic Minimization
Engine imported by `func_bug_reducer.py`) is not among the visible
sources; partitioning of the target into `granularity` contiguous
chunks follows spec section 4.1 step 1.  `splitChunks g l` splits `l`
into `g` contiguous chunks; when `1 ≤ g ≤ l.length` every chunk is
non-empty and their concatenation is `l`. -/
def splitChunks {α : Type} : Nat → List α → List (List α)
  | 0, _ => []
  | 1, l => [l]
  | g + 2, l =>
      let k := l.length / (g + 2)
      l.take k :: splitChunks (g + 1) (l.drop k)

/-- Modelled from the spec: one scan of spec section 4.1 step 2 over the
chunks of the current target — each chunk is offered to the oracle as
the candidate "prefix" against the rest of the target (the elements of
the chunks already passed, `accJ`, followed by the remaining chunks) as
the "suffix", until the oracle reports KEEPPREFIX (reduce to the chunk)
or KEEPSUFFIX (reduce to the chunk's complement).  Returns the number of
oracle invocations made, and on success the new target together with
`true` when it was a chunk (step 3: reset granularity) or `false` when
it was a complement (step 4: reduce granularity). -/
def scanChunks {α : Type} (oracle : Oracle α) (accJ : List α) :
    List (List α) → Nat × Option (List α × Bool)
  | [] => (0, none)
  | c :: rest =>
      match oracle c (accJ ++ rest.flatten) with
      | .keepPre => (1, some (c, true))
      | .keepSuf => (1, some (accJ ++ rest.flatten, false))
      | .noFailure =>
          let out := scanChunks oracle (accJ ++ c) rest
          (out.1 + 1, out.2)

/-- Clamp of the granularity into `[2, n]` (spec section 4.1:
granularity starts at 2, is bounded below by 2 and above by
`len(target)`). -/
def clampG (g n : Nat) : Nat :=
  max 2 (min g n)

/-- Modelled from the spec: the main loop of the Minimization Engine
(`list_reducer.py`, absent from the sources), spec section 4.1 steps
1-5, written with an explicit round counter (`fuel`) so that the
recursion is structural; `reduce_list` below supplies enough fuel.  At
each round the granularity is clamped into `[2, len(target)]` ("bounded
by len(target)", step 5); a target of length at most 1 cannot be
partitioned further and is final.  On a chunk success the target becomes
the chunk and granularity resets to 2 (step 3); on a complement success
the target becomes the complement and granularity drops by one (step 4);
with no success the granularity doubles while it is below `len(target)`,
else the loop terminates (step 5).  Returns the final target, the total
number of oracle invocations, and the list of every intermediate target
the engine assigned, in assignment order. -/
def reduceLoop {α : Type} (oracle : Oracle α) :
    Nat → List α → Nat → Option (List α × Nat × List (List α))
  | 0, _, _ => none
  | fuel + 1, target, g =>
      if target.length ≤ 1 then some (target, 0, [])
      else
        let gg := clampG g target.length
        let scan := scanChunks oracle [] (splitChunks gg target)
        match scan.2 with
        | some (t, isChunk) =>
            match reduceLoop oracle fuel t (if isChunk then 2 else gg - 1) with
            | none => none
            | some (tf, c, tr) => some (tf, scan.1 + c, t :: tr)
        | none =>
            if gg < target.length then
              match reduceLoop oracle fuel target (2 * gg) with
              | none => none
              | some (tf, c, tr) => some (tf, scan.1 + c, tr)
            else some (target, scan.1, [])

/-- Fuel bound for `reduceLoop`: enough rounds for any input of the
given length (each round makes at least one oracle call, and the call
count is quadratically bounded; see `reduceLoop_total_calls`). -/
def reduceFuel (n : Nat) : Nat :=
  3 * n * n + 3 * n + 1

/-- Modelled from the spec: `reduce(list, oracle) -> MinimalList`
(spec section 4.1), the entry point of the Minimization Engine from the
missing `list_reducer.py`; the target starts as the whole input list and
the granularity starts at 2. -/
def reduce_list {α : Type} (oracle : Oracle α) (l : List α) :
    Option (List α × Nat × List (List α)) :=
  reduceLoop oracle (reduceFuel l.length) l 2

/-- Cumulative call budget available after the target length has
dropped below `n`: `K n = 3 * (0 + 1 + ... + (n-1))`. -/
def engineBudget : Nat → Nat
  | 0 => 0
  | n + 1 => 3 * n + engineBudget n

/-- Call budget of one engine state: the per-length budget for the
current round sequence plus the cumulative budget for smaller targets.
Zero once the target cannot be partitioned. -/
def statePotential {α : Type} (target : List α) (g : Nat) : Nat :=
  if target.length ≤ 1 then 0
  else
    (if clampG g target.length < target.length then
        3 * target.length - clampG g target.length
      else target.length) +
      engineBudget target.length

/-- Oracle soundness hypothesis of the engine contract (spec section
4.1): whichever part the oracle reports as still-failing does reproduce
the anomaly. -/
def OracleRespects {α : Type} (anomalous : List α → Bool) (oracle : Oracle α) : Prop :=
  ∀ p s : List α,
    (oracle p s = .keepPre → anomalous p = true) ∧
    (oracle p s = .keepSuf → anomalous s = true)

/-! ## Engine lemmas -/

theorem splitChunks_flatten_aux {α : Type} :
    ∀ (g : Nat) (l : List α), (splitChunks (g + 1) l).flatten = l := by
  intro g
  induction g with
  | zero => intro l; simp [splitChunks]
  | succ g ih =>
      intro l
      simp only [splitChunks, List.flatten_cons, ih, List.take_append_drop]

theorem splitChunks_flatten {α : Type} (g : Nat) (l : List α) (h : 1 ≤ g) :
    (splitChunks g l).flatten = l := by
  obtain ⟨g', rfl⟩ : ∃ g', g = g' + 1 := ⟨g - 1, by omega⟩
  exact splitChunks_flatten_aux g' l

theorem splitChunks_ne_nil_aux {α : Type} :
    ∀ (g : Nat) (l : List α), g + 1 ≤ l.length →
      ∀ c ∈ splitChunks (g + 1) l, c ≠ [] := by
  intro g
  induction g with
  | zero =>
      intro l hl c hc
      simp only [splitChunks, List.mem_singleton] at hc
      subst hc
      exact List.ne_nil_of_length_pos (by omega)
  | succ g ih =>
      intro l hl c hc
      simp only [splitChunks, List.mem_cons] at hc
      have hk1 : 1 ≤ l.length / (g + 2) :=
        (Nat.one_le_div_iff (by omega)).mpr (by omega)
      rcases hc with hc | hc
      · subst hc
        apply List.ne_nil_of_length_pos
        simp only [List.length_take]
        omega
      · have hmul : l.length / (g + 2) * (g + 2) ≤ l.length :=
          Nat.div_mul_le_self _ _
        have hge : g + 1 + l.length / (g + 2) ≤ l.length := by
          have h1 : g + 1 ≤ l.length / (g + 2) * (g + 1) :=
            Nat.le_mul_of_pos_left _ (by omega)
          have h2 : l.length / (g + 2) * (g + 1) + l.length / (g + 2) =
              l.length / (g + 2) * (g + 2) := by ring
          omega
        refine ih (l.drop (l.length / (g + 2))) ?_ c hc
        simp only [List.length_drop]
        omega

theorem splitChunks_ne_nil {α : Type} (g : Nat) (l : List α)
    (h1 : 1 ≤ g) (h : g ≤ l.length) : ∀ c ∈ splitChunks g l, c ≠ [] := by
  obtain ⟨g', rfl⟩ : ∃ g', g = g' + 1 := ⟨g - 1, by omega⟩
  exact splitChunks_ne_nil_aux g' l h

theorem splitChunks_length_aux {α : Type} :
    ∀ (g : Nat) (l : List α), (splitChunks (g + 1) l).length = g + 1 := by
  intro g
  induction g with
  | zero => intro l; simp [splitChunks]
  | succ g ih =>
      intro l
      simp only [splitChunks, List.length_cons, ih]

theorem splitChunks_length {α : Type} (g : Nat) (l : List α) (h : 1 ≤ g) :
    (splitChunks g l).length = g := by
  obtain ⟨g', rfl⟩ : ∃ g', g = g' + 1 := ⟨g - 1, by omega⟩
  exact splitChunks_length_aux g' l

theorem flatten_length_pos {α : Type} (cs : List (List α))
    (hne : ∀ c ∈ cs, c ≠ []) (h : cs ≠ []) : 0 < cs.flatten.length := by
  cases cs with
  | nil => exact absurd rfl h
  | cons c rest =>
      have hc : c ≠ [] := hne c (List.mem_cons_self c rest)
      have : 0 < c.length := List.length_pos.mpr hc
      simp only [List.flatten_cons, List.length_append]
      omega

theorem scanChunks_calls_le {α : Type} (oracle : Oracle α) :
    ∀ (cs : List (List α)) (accJ : List α),
      (scanChunks oracle accJ cs).1 ≤ cs.length := by
  intro cs
  induction cs with
  | nil => intro accJ; simp [scanChunks]
  | cons c rest ih =>
      intro accJ
      simp only [scanChunks]
      cases oracle c (accJ ++ rest.flatten) with
      | keepPre => simp
      | keepSuf => simp
      | noFailure =>
          simp only [List.length_cons]
          have := ih (accJ ++ c)
          omega

theorem scanChunks_some_lt {α : Type} (oracle : Oracle α) :
    ∀ (cs : List (List α)) (accJ : List α) (t : List α) (b : Bool),
      (∀ c ∈ cs, c ≠ []) → (accJ ≠ [] ∨ 2 ≤ cs.length) →
      (scanChunks oracle accJ cs).2 = some (t, b) →
      t.length < accJ.length + cs.flatten.length := by
  intro cs
  induction cs with
  | nil => intro accJ t b _ _ h; simp [scanChunks] at h
  | cons c rest ih =>
      intro accJ t b hne hpos h
      have hc : c ≠ [] := hne c (List.mem_cons_self c rest)
      have hclen : 0 < c.length := List.length_pos.mpr hc
      simp only [scanChunks] at h
      cases horc : oracle c (accJ ++ rest.flatten) with
      | keepPre =>
          rw [horc] at h
          simp only [Option.some.injEq, Prod.mk.injEq] at h
          obtain ⟨rfl, -⟩ := h
          simp only [List.flatten_cons, List.length_append]
          rcases hpos with hp | hp
          · have : 0 < accJ.length := List.length_pos.mpr hp
            omega
          · have hr : rest ≠ [] := by
              intro hr
              subst hr
              simp at hp
            have : 0 < rest.flatten.length :=
              flatten_length_pos rest
                (fun u hu => hne u (List.mem_cons_of_mem c hu)) hr
            omega
      | keepSuf =>
          rw [horc] at h
          simp only [Option.some.injEq, Prod.mk.injEq] at h
          obtain ⟨rfl, -⟩ := h
          simp only [List.length_append, List.flatten_cons]
          omega
      | noFailure =>
          rw [horc] at h
          simp only at h
          have := ih (accJ ++ c) t b
            (fun u hu => hne u (List.mem_cons_of_mem c hu))
            (Or.inl (by simp [hc])) h
          simp only [List.length_append] at this ⊢
          simp only [List.flatten_cons, List.length_append]
          omega

theorem scanChunks_some_anomalous {α : Type} (anomalous : List α → Bool)
    (oracle : Oracle α) (hor : OracleRespects anomalous oracle) :
    ∀ (cs : List (List α)) (accJ : List α) (t : List α) (b : Bool),
      (scanChunks oracle accJ cs).2 = some (t, b) → anomalous t = true := by
  intro cs
  induction cs with
  | nil => intro accJ t b h; simp [scanChunks] at h
  | cons c rest ih =>
      intro accJ t b h
      simp only [scanChunks] at h
      cases horc : oracle c (accJ ++ rest.flatten) with
      | keepPre =>
          rw [horc] at h
          simp only [Option.some.injEq, Prod.mk.injEq] at h
          obtain ⟨rfl, -⟩ := h
          exact (hor c (accJ ++ rest.flatten)).1 horc
      | keepSuf =>
          rw [horc] at h
          simp only [Option.some.injEq, Prod.mk.injEq] at h
          obtain ⟨rfl, -⟩ := h
          exact (hor c (accJ ++ rest.flatten)).2 horc
      | noFailure =>
          rw [horc] at h
          simp only at h
          exact ih (accJ ++ c) t b h

theorem engineBudget_mono : ∀ {m n : Nat}, m ≤ n → engineBudget m ≤ engineBudget n := by
  intro m n h
  induction n with
  | zero =>
      have : m = 0 := by omega
      subst this
      exact Nat.le_refl _
  | succ n ih =>
      by_cases hm : m ≤ n
      · exact Nat.le_trans (ih hm) (by simp [engineBudget])
      · have : m = n + 1 := by omega
        subst this
        exact Nat.le_refl _

theorem engineBudget_le_sq : ∀ n : Nat, engineBudget n ≤ 3 * n * n := by
  intro n
  induction n with
  | zero => simp [engineBudget]
  | succ n ih =>
      simp only [engineBudget]
      nlinarith

theorem engineBudget_succ_sub (n : Nat) (h : 1 ≤ n) :
    engineBudget n = 3 * (n - 1) + engineBudget (n - 1) := by
  obtain ⟨m, rfl⟩ : ∃ m, n = m + 1 := ⟨n - 1, by omega⟩
  simp [engineBudget]

theorem clampG_ge (g n : Nat) : 2 ≤ clampG g n := le_max_left _ _

theorem clampG_le (g : Nat) {n : Nat} (h : 2 ≤ n) : clampG g n ≤ n := by
  have h2 : min g n ≤ n := min_le_right _ _
  unfold clampG
  omega

theorem statePotential_le_entry {α : Type} (t : List α) (g : Nat) :
    statePotential t g ≤ 3 * t.length + engineBudget t.length := by
  unfold statePotential
  split
  · omega
  · have h1 := clampG_ge g t.length
    split <;> omega

theorem statePotential_closed {α : Type} (target : List α) (g : Nat)
    (h1 : ¬ target.length ≤ 1) :
    statePotential target g =
      (if clampG g target.length < target.length then
          3 * target.length - clampG g target.length
        else target.length) + engineBudget target.length := by
  unfold statePotential
  rw [if_neg h1]

theorem reduceLoop_total {α : Type} (oracle : Oracle α) :
    ∀ (fuel : Nat) (target : List α) (g : Nat),
      statePotential target g < fuel →
      ∃ tf c tr, reduceLoop oracle fuel target g = some (tf, c, tr) ∧
        c ≤ statePotential target g := by
  intro fuel
  induction fuel with
  | zero => intro target g hP; omega
  | succ fuel ih =>
      intro target g hP
      by_cases h1 : target.length ≤ 1
      · refine ⟨target, 0, [], ?_, Nat.zero_le _⟩
        rw [reduceLoop]
        simp [h1]
      · have hlen : 2 ≤ target.length := by omega
        have hgg2 : 2 ≤ clampG g target.length := clampG_ge _ _
        have hggle : clampG g target.length ≤ target.length := clampG_le _ hlen
        have hP' := statePotential_closed target g h1
        have hflat : (splitChunks (clampG g target.length) target).flatten =
            target := splitChunks_flatten _ _ (by omega)
        have hclen : (splitChunks (clampG g target.length) target).length =
            clampG g target.length := splitChunks_length _ _ (by omega)
        have hne : ∀ c ∈ splitChunks (clampG g target.length) target, c ≠ [] :=
          splitChunks_ne_nil _ _ (by omega) hggle
        have hcalls :
            (scanChunks oracle [] (splitChunks (clampG g target.length) target)).1 ≤
              clampG g target.length := by
          have := scanChunks_calls_le oracle
            (splitChunks (clampG g target.length) target) []
          omega
        cases hscan :
            (scanChunks oracle [] (splitChunks (clampG g target.length) target)).2 with
        | some tb =>
            obtain ⟨t, isChunk⟩ := tb
            have htlt : t.length < target.length := by
              have := scanChunks_some_lt oracle
                (splitChunks (clampG g target.length) target) [] t isChunk hne
                (Or.inr (by omega)) hscan
              simpa [hflat] using this
            have hnext : statePotential t
                (if isChunk then 2 else clampG g target.length - 1) ≤
                  engineBudget target.length := by
              have h2 := statePotential_le_entry t
                (if isChunk then 2 else clampG g target.length - 1)
              have h3 : engineBudget t.length ≤ engineBudget (target.length - 1) :=
                engineBudget_mono (by omega)
              have h4 := engineBudget_succ_sub target.length (by omega)
              omega
            have hPge : 2 + engineBudget target.length ≤ statePotential target g := by
              rw [hP']
              split <;> omega
            have hfuel : statePotential t
                (if isChunk then 2 else clampG g target.length - 1) < fuel := by
              omega
            obtain ⟨tf, c', tr', hrec, hc'⟩ :=
              ih t (if isChunk then 2 else clampG g target.length - 1) hfuel
            refine ⟨tf,
              (scanChunks oracle []
                (splitChunks (clampG g target.length) target)).1 + c',
              t :: tr', ?_, ?_⟩
            · rw [reduceLoop, if_neg h1]
              simp only [hscan, hrec]
            · rw [hP']
              split <;> omega
        | none =>
            by_cases h2 : clampG g target.length < target.length
            · have hQ := statePotential_closed target (2 * clampG g target.length) h1
              have hm : clampG (2 * clampG g target.length) target.length =
                  min (2 * clampG g target.length) target.length := by
                unfold clampG
                omega
              have hnext : statePotential target (2 * clampG g target.length) +
                  clampG g target.length ≤ statePotential target g := by
                rw [hQ, hP', hm, if_pos h2]
                by_cases h3 : 2 * clampG g target.length < target.length
                · have hmin : min (2 * clampG g target.length) target.length =
                      2 * clampG g target.length := by omega
                  rw [hmin, if_pos h3]
                  omega
                · have hmin : min (2 * clampG g target.length) target.length =
                      target.length := by omega
                  rw [hmin, if_neg (lt_irrefl target.length)]
                  omega
              have hfuel : statePotential target (2 * clampG g target.length) <
                  fuel := by
                omega
              obtain ⟨tf, c', tr', hrec, hc'⟩ :=
                ih target (2 * clampG g target.length) hfuel
              refine ⟨tf,
                (scanChunks oracle []
                  (splitChunks (clampG g target.length) target)).1 + c',
                tr', ?_, ?_⟩
              · rw [reduceLoop, if_neg h1]
                simp only [hscan, h2, if_true, hrec]
              · omega
            · refine ⟨target,
                (scanChunks oracle []
                  (splitChunks (clampG g target.length) target)).1, [], ?_, ?_⟩
              · rw [reduceLoop, if_neg h1]
                simp only [hscan, h2, if_false]
              · rw [hP']
                split <;> omega

theorem reduceLoop_anomaly {α : Type} (anomalous : List α → Bool)
    (oracle : Oracle α) (hor : OracleRespects anomalous oracle) :
    ∀ (fuel : Nat) (target : List α) (g : Nat) (tf : List α) (c : Nat)
      (tr : List (List α)),
      anomalous target = true →
      reduceLoop oracle fuel target g = some (tf, c, tr) →
      anomalous tf = true ∧ ∀ t ∈ tr, anomalous t = true := by
  intro fuel
  induction fuel with
  | zero => intro target g tf c tr _ h; simp [reduceLoop] at h
  | succ fuel ih =>
      intro target g tf c tr htar h
      rw [reduceLoop] at h
      by_cases h1 : target.length ≤ 1
      · rw [if_pos h1] at h
        simp only [Option.some.injEq, Prod.mk.injEq] at h
        obtain ⟨rfl, -, rfl⟩ := h
        exact ⟨htar, by simp⟩
      · rw [if_neg h1] at h
        cases hscan :
            (scanChunks oracle [] (splitChunks (clampG g target.length) target)).2 with
        | some tb =>
            obtain ⟨t, isChunk⟩ := tb
            simp only [hscan] at h
            have hanom : anomalous t = true :=
              scanChunks_some_anomalous anomalous oracle hor
                (splitChunks (clampG g target.length) target) [] t isChunk hscan
            cases hrec : reduceLoop oracle fuel t
                (if isChunk then 2 else clampG g target.length - 1) with
            | none => rw [hrec] at h; simp at h
            | some res =>
                obtain ⟨tf', c', tr'⟩ := res
                rw [hrec] at h
                simp only [Option.some.injEq, Prod.mk.injEq] at h
                obtain ⟨rfl, -, rfl⟩ := h
                obtain ⟨hf, htr⟩ := ih t _ tf' c' tr' hanom hrec
                refine ⟨hf, ?_⟩
                intro u hu
                rcases List.mem_cons.mp hu with rfl | hu
                · exact hanom
                · exact htr u hu
        | none =>
            simp only [hscan] at h
            by_cases h2 : clampG g target.length < target.length
            · rw [if_pos h2] at h
              cases hrec : reduceLoop oracle fuel target
                  (2 * clampG g target.length) with
              | none => rw [hrec] at h; simp at h
              | some res =>
                  obtain ⟨tf', c', tr'⟩ := res
                  rw [hrec] at h
                  simp only [Option.some.injEq, Prod.mk.injEq] at h
                  obtain ⟨rfl, -, rfl⟩ := h
                  exact ih target _ tf' c' tr' htar hrec
            · rw [if_neg h2] at h
              simp only [Option.some.injEq, Prod.mk.injEq] at h
              obtain ⟨rfl, -, rfl⟩ := h
              exact ⟨htar, by simp⟩

/-- C1.  Anomaly preservation (spec-modelled engine): if the oracle
reports KEEPPREFIX/KEEPSUFFIX only for parts that reproduce the anomaly
and the original input reproduces it, then every intermediate target
list the engine assigns during `reduce(list, oracle)` and the final list
it returns reproduce the anomaly — the engine never returns a list on
which the invariant is violated. -/
theorem reduce_list_anomaly_preservation {α : Type} (anomalous : List α → Bool)
    (oracle : Oracle α) (l tf : List α) (c : Nat) (tr : List (List α))
    (hor : OracleRespects anomalous oracle)
    (hin : anomalous l = true)
    (hred : reduce_list oracle l = some (tf, c, tr)) :
    anomalous tf = true ∧ ∀ t ∈ tr, anomalous t = true :=
  reduceLoop_anomaly anomalous oracle hor (reduceFuel l.length) l 2 tf c tr hin hred

/-- C1 witness: the preservation theorem applied to the concrete input
`[1, 2, 3, 4]` with the oracle that reports an anomaly exactly when the
tested part contains `3`; the engine converges to `[3]` through the
intermediate targets `[3, 4]` and `[3]`, all anomalous. -/
theorem reduce_list_anomaly_preservation_witness :
    (fun l : List Nat => l.contains 3) [3] = true ∧
    (∀ t ∈ [[3, 4], [3]], (fun l : List Nat => l.contains 3) t = true) := by
  refine reduce_list_anomaly_preservation (fun l : List Nat => l.contains 3)
    (fun p s =>
      if s.contains 3 then .keepSuf
      else if p.contains 3 then .keepPre
      else .noFailure)
    [1, 2, 3, 4] [3] 2 [[3, 4], [3]] ?_ (by decide) (by decide)
  intro p s
  by_cases hs : 3 ∈ s <;> by_cases hp : 3 ∈ p <;>
    simp [hs, hp]

/-- C6.  Termination (spec-modelled engine): for every input list and
every oracle — including one that always returns NOFAILURE —
`reduce(list, oracle)` terminates with a result after a finite number of
oracle calls, and the number of oracle invocations is at most the
explicit quadratic bound `3n² + 3n` for an input of length `n`. -/
theorem reduce_list_terminates {α : Type} (oracle : Oracle α) (l : List α) :
    ∃ tf c tr, reduce_list oracle l = some (tf, c, tr) ∧
      c ≤ 3 * l.length * l.length + 3 * l.length := by
  have hpot : statePotential l 2 ≤ 3 * l.length + engineBudget l.length :=
    statePotential_le_entry l 2
  have hbud : engineBudget l.length ≤ 3 * l.length * l.length :=
    engineBudget_le_sq _
  have hfuel : statePotential l 2 < reduceFuel l.length := by
    unfold reduceFuel
    omega
  obtain ⟨tf, c, tr, h, hc⟩ :=
    reduceLoop_total oracle (reduceFuel l.length) l 2 hfuel
  exact ⟨tf, c, tr, h, by omega⟩

/-! ## Helper lemmas -/

theorem char_toNat_lt (c : Char) : c.toNat < 16777216 := by
  rcases c.valid with h | ⟨_, h2⟩
  · exact Nat.lt_trans h (by norm_num)
  · exact Nat.lt_trans h2 (by norm_num)

theorem charNibbles_inj {c d : Char} (h : charNibbles c = charNibbles d) :
    c = d := by
  have hc := char_toNat_lt c
  have hd := char_toNat_lt d
  simp only [charNibbles, List.cons.injEq, and_true] at h
  obtain ⟨h1, h2, h3, h4, h5, h6⟩ := h
  have : c.toNat = d.toNat := by omega
  exact Char.eq_of_val_eq (UInt32.eq_of_toBitVec_eq (BitVec.toNat_injective this))

theorem md5_hexdigest_model_inj :
    ∀ {s t : List Char}, md5_hexdigest_model s = md5_hexdigest_model t → s = t := by
  intro s
  induction s with
  | nil =>
      intro t h
      cases t with
      | nil => rfl
      | cons d t => simp [md5_hexdigest_model, charNibbles] at h
  | cons c s ih =>
      intro t h
      cases t with
      | nil => simp [md5_hexdigest_model, charNibbles] at h
      | cons d t =>
          simp only [md5_hexdigest_model, List.flatMap_cons] at h
          obtain ⟨h1, h2⟩ := List.append_inj h rfl
          rw [charNibbles_inj h1, ih h2]

theorem sep_append_inj :
    ∀ (a b r s : List Char), '\n' ∉ a → '\n' ∉ b →
      a ++ '\n' :: r = b ++ '\n' :: s → a = b ∧ r = s := by
  intro a
  induction a with
  | nil =>
      intro b r s _ hb h
      cases b with
      | nil => simpa using h
      | cons y b =>
          simp only [List.nil_append, List.cons_append, List.cons.injEq] at h
          exact absurd (h.1 ▸ List.mem_cons_self y b) hb
  | cons x a ih =>
      intro b r s ha hb h
      cases b with
      | nil =>
          simp only [List.cons_append, List.nil_append, List.cons.injEq] at h
          exact absurd (h.1 ▸ List.mem_cons_self x a) ha
      | cons y b =>
          simp only [List.cons_append, List.cons.injEq] at h
          obtain ⟨hxy, hrest⟩ := h
          have ha' : '\n' ∉ a := fun hm => ha (List.mem_cons_of_mem x hm)
          have hb' : '\n' ∉ b := fun hm => hb (List.mem_cons_of_mem y hm)
          obtain ⟨he, hr⟩ := ih b r s ha' hb' hrest
          exact ⟨by rw [hxy, he], hr⟩

theorem funclist_file_contents_inj :
    ∀ xs ys : List String,
      (∀ f ∈ xs, ('\n' : Char) ∉ f.data) → (∀ f ∈ ys, ('\n' : Char) ∉ f.data) →
      funclist_file_contents xs = funclist_file_contents ys → xs = ys := by
  intro xs
  induction xs with
  | nil =>
      intro ys _ _ h
      cases ys with
      | nil => rfl
      | cons g ys => simp [funclist_file_contents] at h
  | cons f xs ih =>
      intro ys hx hy h
      cases ys with
      | nil => simp [funclist_file_contents] at h
      | cons g ys =>
          simp only [funclist_file_contents, List.foldr_cons] at h
          obtain ⟨hfg, hrest⟩ :=
            sep_append_inj f.data g.data _ _
              (hx f (List.mem_cons_self f xs)) (hy g (List.mem_cons_self g ys)) h
          have h1 : f = g := String.ext hfg
          have h2 : xs = ys :=
            ih ys (fun u hu => hx u (List.mem_cons_of_mem f hu))
              (fun u hu => hy u (List.mem_cons_of_mem g hu)) hrest
          rw [h1, h2]

/-! ## Claim theorems: oracle, driver, fingerprint, naming -/

/-- C4.  Oracle leg order and well-formedness: `run_test` tests the
suffix leg first and returns KEEPSUFFIX when the non-empty suffix alone
reproduces; otherwise it tests the prefix leg and returns KEEPPREFIX
when the non-empty prefix alone reproduces; otherwise NOFAILURE.  An
empty leg is never tested, so `run_test test pre []` never returns
KEEPSUFFIX and `run_test test [] suf` never returns KEEPPREFIX. -/
theorem run_test_leg_order (test : List String → Bool) (pre suf : List String) :
    ((run_test test pre []).1 ≠ .keepSuf) ∧
    ((run_test test [] suf).1 ≠ .keepPre) ∧
    (suf ≠ [] → test suf = true → (run_test test pre suf).1 = .keepSuf) ∧
    ((suf = [] ∨ test suf = false) → pre ≠ [] → test pre = true →
      (run_test test pre suf).1 = .keepPre) ∧
    ((suf = [] ∨ test suf = false) → (pre = [] ∨ test pre = false) →
      (run_test test pre suf).1 = .noFailure) := by
  refine ⟨?_, ?_, ?_, ?_, ?_⟩
  · unfold run_test
    split
    · simp_all
    · split <;> simp
  · unfold run_test
    split
    · simp
    · split
      · simp_all
      · simp
  · intro h1 h2
    have : 0 < suf.length := List.length_pos.mpr h1
    simp [run_test, this, h2]
  · intro h1 h2 h3
    have hs : ¬(0 < suf.length ∧ test suf = true) := by
      rcases h1 with h | h
      · simp [h]
      · simp [h]
    have : 0 < pre.length := List.length_pos.mpr h2
    simp [run_test, hs, this, h3]
  · intro h1 h2
    have hs : ¬(0 < suf.length ∧ test suf = true) := by
      rcases h1 with h | h
      · simp [h]
      · simp [h]
    have hp : ¬(0 < pre.length ∧ test pre = true) := by
      rcases h2 with h | h
      · simp [h]
      · simp [h]
    simp [run_test, hs, hp]

/-- C4 witness: the leg-order theorem applied at concrete inputs, with
each hypothesis discharged. -/
theorem run_test_leg_order_witness :
    (run_test (fun _ => true) ["a"] ["b"]).1 = .keepSuf ∧
    (run_test (fun _ => false) ["a"] ["b"]).1 = .noFailure := by
  constructor
  · exact (run_test_leg_order (fun _ => true) ["a"] ["b"]).2.2.1
      (by decide) rfl
  · exact (run_test_leg_order (fun _ => false) ["a"] ["b"]).2.2.2.2
      (Or.inr rfl) (Or.inr rfl)

/-- C10.  Oracle frame property: `run_test` returns alongside the
outcome tag exactly the prefix and suffix it was given, unmodified. -/
theorem run_test_frame (test : List String → Bool) (pre suf : List String) :
    (run_test test pre suf).2 = (pre, suf) := by
  unfold run_test
  split
  · rfl
  · split <;> rfl

/-- C9.  Dry-run short-circuit: `br_call` under `dry_run` returns exit
code 0 with the empty fingerprint, and its result does not depend on the
process runner — no external process is consulted. -/
theorem br_call_dry_run (args : List String)
    (call_fp call_fp' : List String → RunResult) :
    br_call args true call_fp = { exit_code := 0, fingerprint := [] } ∧
    br_call args true call_fp = br_call args true call_fp' := by
  constructor <;> rfl

/-- C7.  Base-case guard with the driver's real error path: the driver
returns immediately, reducer unconstructed, exactly when the base-case
invocation exits with code 0; but at the failing input — a base case
exiting nonzero (exit code 1), where the claim says it proceeds to
reduction — it raises NameError on the undefined names `OptimizerTester`
and `pass_list`, and in fact no run of the driver ever constructs the
reducer. -/
theorem invoke_function_bug_reducer_crash_guard :
    (∀ r : RunResult,
      invoke_function_bug_reducer r = .earlySuccess ↔ r.exit_code = 0) ∧
    invoke_function_bug_reducer { exit_code := 1, fingerprint := [] } =
      .nameErrorCrash ∧
    (∀ r : RunResult,
      invoke_function_bug_reducer r = .earlySuccess ∨
      invoke_function_bug_reducer r = .nameErrorCrash) := by
  refine ⟨?_, by decide, ?_⟩
  · intro r
    by_cases h : r.exit_code = 0 <;> simp [invoke_function_bug_reducer, h]
  · intro r
    by_cases h : r.exit_code = 0 <;> simp [invoke_function_bug_reducer, h]

/-- C2.  Fingerprint determinism and exit-class distinctness: two runs
with the same stdout and stderr bytes have equal fingerprints exactly
when their exit-code classes (zero versus nonzero) agree — so identical
(exit-class, stdout, stderr) triples always fingerprint identically, and
a zero-exit run never shares a fingerprint with a nonzero-exit run even
on byte-identical output. -/
theorem call_fingerprint_exit_class (e1 e2 : Int) (out err : List Nat) :
    ((call_fingerprint e1 out err).fingerprint =
        (call_fingerprint e2 out err).fingerprint) ↔ ((e1 = 0) ↔ (e2 = 0)) := by
  by_cases h1 : e1 = 0 <;> by_cases h2 : e2 = 0 <;>
    simp [call_fingerprint, fingerprint_stream, sha256_hexdigest_model, h1, h2]

/-- C3 counterexample: the candidate lists `["ab"]` and `["a", "b"]` are
distinct (different elements) but receive the same identifier, because
`get_funclist_hash` digests the bare concatenation of the elements with
no separator. -/
theorem get_funclist_hash_collision :
    (["ab"] : List String) ≠ ["a", "b"] ∧
    get_funclist_hash ["ab"] = get_funclist_hash ["a", "b"] := by
  constructor
  · decide
  · rfl

/-- C3 amended.  Content-derived naming is collision-free exactly up to
the concatenated update stream: two candidate lists receive the same
identifier if and only if the concatenations of their elements coincide;
lists with distinct concatenations (in particular, same multiset in a
different order with distinct concatenations) never collide. -/
theorem get_funclist_hash_eq_iff (xs ys : List String) :
    get_funclist_hash xs = get_funclist_hash ys ↔
      md5_update_stream xs = md5_update_stream ys := by
  constructor
  · exact fun h => md5_hexdigest_model_inj h
  · intro h
    unfold get_funclist_hash
    rw [h]

/-- C5 counterexample: an extraction leg reporting nonzero exit
(`exit_code = 1`) is ignored by the oracle — `_test_funclist` discards
both extraction results, raises nothing, and can still report the
no-failure verdict of the tester. -/
theorem test_funclist_extraction_failure_not_fatal :
    test_funclist { exit_code := 1, fingerprint := [] }
        { exit_code := 1, fingerprint := [] } (.ok false) = .ok false ∧
    ({ exit_code := 1, fingerprint := [] } : RunResult).exit_code ≠ 0 := by
  constructor
  · rfl
  · decide

/-- C5 amended.  Codegen failures are fatal, extraction failures are
not: `SwiftOptCompileInvoker.invoke_with_passlist` raises a fatal
configuration error exactly when one of its two codegen legs (sil-opt,
sil-llvm-gen) exits nonzero — such a failure is never returned as a
success — while `_test_funclist` never inspects the exit codes of its
two extraction invocations and returns the tester verdict unchanged. -/
theorem codegen_failure_fatal :
    (∀ silopt_result llvmgen_result run_result : RunResult,
      (∃ e, invoke_with_passlist silopt_result llvmgen_result run_result =
          .error e) ↔
        (silopt_result.exit_code ≠ 0 ∨ llvmgen_result.exit_code ≠ 0)) ∧
    (∀ (r1 r2 : RunResult) (t : Except ConfigError Bool),
      test_funclist r1 r2 t = t) := by
  constructor
  · intro s l r
    by_cases hs : s.exit_code = 0 <;> by_cases hl : l.exit_code = 0 <;>
      simp [invoke_with_passlist, hs, hl]
  · intro r1 r2 t
    rfl

/-- C8.  Scratch-directory layout: one `_test_funclist` call writes
exactly one description file, named `func_list_<hash>` by the list's
content hash, whose contents list the ordered elements one per line
(recoverable: the contents determine the list when no element contains a
newline), and derives exactly two distinct artifact stems from the same
hash — `<hash>` for the candidate subset and `<hash>_invert` for its
complement. -/
theorem test_funclist_scratch_layout (funcs : List String) :
    (test_funclist_writes funcs).description_file_name =
      "func_list_" ++ get_funclist_hash_hex funcs ∧
    (test_funclist_writes funcs).description_file_contents =
      funclist_file_contents funcs ∧
    (test_funclist_writes funcs).artifact_stems =
      (get_funclist_hash_hex funcs, get_funclist_hash_hex funcs ++ "_invert") ∧
    (test_funclist_writes funcs).artifact_stems.1 ≠
      (test_funclist_writes funcs).artifact_stems.2 ∧
    (∀ ys : List String,
      (∀ f ∈ funcs, ('\n' : Char) ∉ f.data) →
      (∀ f ∈ ys, ('\n' : Char) ∉ f.data) →
      (test_funclist_writes funcs).description_file_contents =
        (test_funclist_writes ys).description_file_contents →
      funcs = ys) := by
  refine ⟨rfl, rfl, rfl, ?_, ?_⟩
  · intro h
    have hd : (get_funclist_hash_hex funcs).data =
        (get_funclist_hash_hex funcs ++ "_invert").data :=
      congrArg String.data h
    rw [String.data_append] at hd
    have hl := congrArg List.length hd
    simp at hl
  · intro ys hx hy h
    exact funclist_file_contents_inj funcs ys hx hy h

/-- C8 witness: the layout theorem applied at a concrete list, with the
newline-freedom hypotheses discharged. -/
theorem test_funclist_scratch_layout_witness :
    (test_funclist_writes ["a", "b"]).artifact_stems.1 ≠
      (test_funclist_writes ["a", "b"]).artifact_stems.2 ∧
    (["a", "b"] : List String) = ["a", "b"] := by
  refine ⟨(test_funclist_scratch_layout ["a", "b"]).2.2.2.1, ?_⟩
  exact (test_funclist_scratch_layout ["a", "b"]).2.2.2.2 ["a", "b"]
    (by decide) (by decide) rfl

end BugReducer
